import Mathlib

/-!
Verification development for the knowledge-based-search-engine repository.

The definitions below are a shallow embedding of the Python core:
`backend/document_processor.py` (text cleaning and token chunking),
`backend/rag_engine.py` (answer orchestration, similarity filtering and
confidence scoring) and `backend/vector_store.py` (metadata normalization
before indexing).  Machine text is `List Char` / `String`, token ids are
`Nat`, Python floats are modelled as `ℚ`, fallible collaborator calls are
`Except`, and the chunking `while` loop is a fuelled recursion returning
`Option` (so that non-termination of the loop is observable as `none` for
every fuel).
-/

namespace KBSE

/-- Python regex `\s` whitespace (ASCII part), as used by `re.sub(r'\s+', ...)`
and `str.strip()` in `document_processor.py`. -/
def isPySpace (c : Char) : Bool :=
  c == ' ' || c == '\t' || c == '\n' || c == '\r' ||
    c == Char.ofNat 11 || c == Char.ofNat 12

/-- Python regex `\w` word characters (ASCII part). -/
def isWordChar (c : Char) : Bool :=
  c.isAlphanum || c == '_'

/-- The six punctuation characters of the class `[\.\,\!\?\;\:]` whose
repetitions `_clean_text` collapses. -/
def isPunct6 (c : Char) : Bool :=
  c == '.' || c == ',' || c == '!' || c == '?' || c == ';' || c == ':'

/-- Characters kept by `_clean_text`'s second substitution
`re.sub(r'[^\w\s\.\,\!\?\;\:\-\(\)]', '', text)`. -/
def isKeptChar (c : Char) : Bool :=
  isWordChar c || isPySpace c || isPunct6 c || c == '-' || c == '(' || c == ')'

/-- `re.sub(r'\s+', ' ', text)`: every maximal whitespace run becomes a single
space. -/
def collapseWs : List Char → List Char
  | [] => []
  | [c] => if isPySpace c then [' '] else [c]
  | c :: d :: rest =>
    if isPySpace c then
      if isPySpace d then collapseWs (d :: rest)
      else ' ' :: collapseWs (d :: rest)
    else c :: collapseWs (d :: rest)

/-- `re.sub(r'([\.\,\!\?\;\:])\1+', r'\1', text)`: a run of the same
punctuation character collapses to one occurrence (when the first two
characters are the same punctuation mark, dropping the first or the second is
the same thing, so the recursion structurally follows the tail). -/
def collapsePunct : List Char → List Char
  | [] => []
  | [c] => [c]
  | c :: d :: rest =>
    if isPunct6 c ∧ c = d then collapsePunct (d :: rest)
    else c :: collapsePunct (d :: rest)

/-- Python `str.strip()` on a character list. -/
def pyStripL (l : List Char) : List Char :=
  ((l.dropWhile isPySpace).reverse.dropWhile isPySpace).reverse

/-- Python `str.strip()`. -/
def pyStrip (s : String) : String :=
  String.mk (pyStripL s.data)

/-- `DocumentProcessor._clean_text` on a character list: collapse whitespace,
delete non-kept characters, collapse repeated punctuation, strip. -/
def cleanTextL (l : List Char) : List Char :=
  pyStripL (collapsePunct ((collapseWs l).filter isKeptChar))

/-- `DocumentProcessor._clean_text`. -/
def cleanText (s : String) : String :=
  String.mk (cleanTextL s.data)

/-! ## Token chunking (`DocumentProcessor._split_into_chunks`) -/

/-- Normalize one Python slice bound against a list of length `n`
(negative indices count from the end, then clamp to `[0, n]`). -/
def pyIdx (n : Nat) (i : Int) : Nat :=
  if i < 0 then (i + n).toNat else min i.toNat n

/-- Python slice `l[a:b]`. -/
def pySlice {α : Type} (l : List α) (a b : Int) : List α :=
  (l.take (pyIdx l.length b)).drop (pyIdx l.length a)

/-- One window examined by the chunking loop: its half-open token range, the
decoded window text and whether the `> 50` trimmed-length test kept it (kept
windows are exactly the emitted chunks, in order; `chunk_index` of a chunk is
its position among the kept windows, `content` is the stripped text). -/
structure Window where
  startTok : Int
  endTok : Int
  text : String
  kept : Bool
deriving DecidableEq, Repr

/-- `end = min(start + self.chunk_size, len(tokens))` of one loop iteration. -/
def windowEnd (cs : Nat) (tokens : List Nat) (start : Int) : Int :=
  min (start + (cs : Int)) (tokens.length : Int)

/-- The window examined by one loop iteration starting at `start`: its range,
its decoded text `encoding.decode(tokens[start:end])` and the
`len(chunk_text.strip()) > 50` keep test. -/
def mkWindow (cs : Nat) (dec : List Nat → String) (tokens : List Nat)
    (start : Int) : Window :=
  ⟨start, windowEnd cs tokens start,
    dec (pySlice tokens start (windowEnd cs tokens start)),
    decide (50 < (pyStripL (dec (pySlice tokens start (windowEnd cs tokens start))).data).length)⟩

/-- The `while start < len(tokens)` loop of `_split_into_chunks`, with explicit
fuel; `none` means the fuel was exhausted before the loop finished.  Each
iteration records the examined window (the Python code appends the chunk only
when kept; here every window carries its `kept` flag and the emitted chunk
list is the `kept` sublist).  After the window, `start = end - overlap`, and
the loop breaks once `start >= len(tokens) - overlap`. -/
def splitLoop (cs ov : Nat) (dec : List Nat → String) (tokens : List Nat) :
    Nat → Int → List Window → Option (List Window)
  | 0, _, _ => none
  | fuel + 1, start, acc =>
    if start < (tokens.length : Int) then
      if (tokens.length : Int) - (ov : Int) ≤ windowEnd cs tokens start - (ov : Int) then
        some (acc ++ [mkWindow cs dec tokens start])
      else
        splitLoop cs ov dec tokens fuel (windowEnd cs tokens start - (ov : Int))
          (acc ++ [mkWindow cs dec tokens start])
    else some acc

/-- `_split_into_chunks`, run with fuel `tokens.length + 1` (enough whenever
`overlap < chunkSize`, see the termination theorems). -/
def splitIntoChunks (cs ov : Nat) (dec : List Nat → String)
    (tokens : List Nat) : Option (List Window) :=
  splitLoop cs ov dec tokens (tokens.length + 1) 0 []

/-- The emitted chunks: the kept windows, in order. -/
def windowChunks (ws : List Window) : List Window :=
  ws.filter (·.kept)

/-- The chunking loop terminates on this input: some finite fuel suffices. -/
def splitTerminates (cs ov : Nat) (dec : List Nat → String)
    (tokens : List Nat) : Prop :=
  ∃ fuel, (splitLoop cs ov dec tokens fuel 0 []).isSome

/-! ## RAG engine (`backend/rag_engine.py`) -/

/-- A retrieved result as consumed by `RAGEngine`: content, its `source`
metadata entry and the similarity score (`1 - distance`, a Python float
modelled as `ℚ`). -/
structure Doc where
  content : String
  source : String
  score : ℚ
deriving DecidableEq, Repr

/-- Python `round(x, 2)`: round to the nearest hundredth, ties to even. -/
def pyRound2 (x : ℚ) : ℚ :=
  let y := x * 100
  let n : ℤ := ⌊y⌋
  let r := y - (n : ℚ)
  if r < 1/2 then (n : ℚ) / 100
  else if 1/2 < r then ((n + 1 : ℤ) : ℚ) / 100
  else if n % 2 = 0 then (n : ℚ) / 100 else ((n + 1 : ℤ) : ℚ) / 100

/-- `len(re.findall(r"[.!?]", answer)) / 5`, clamped to `1.0`
(the coherence heuristic of `_calculate_confidence`). -/
def coherenceScore (answer : String) : ℚ :=
  min ((answer.data.countP (fun c => c == '.' || c == '!' || c == '?') : ℚ) / 5) 1

/-- The positional weights `[1.0, 0.8, 0.6, 0.4, 0.2]`. -/
def confWeights : List ℚ := [1, 4/5, 3/5, 2/5, 1/5]

/-- `sum(s * w for s, w in zip(scores, weights)) / sum(weights)` with
`weights = [1.0, 0.8, 0.6, 0.4, 0.2][:len(scores)]`. -/
def weightedSimilarity (docs : List Doc) : ℚ :=
  let scores := docs.map (·.score)
  let weights := confWeights.take scores.length
  (List.zipWith (· * ·) scores weights).sum / weights.sum

/-- `RAGEngine._calculate_confidence`. -/
def calcConfidence (docs : List Doc) (answer : String) : ℚ :=
  if docs.isEmpty then 0
  else pyRound2 (min (weightedSimilarity docs * (7/10) + coherenceScore answer * (3/10)) 1)

/-- `RAGEngine._filter_by_similarity` (threshold `θ` is the engine's
`min_similarity_threshold`, default 0.3). -/
def filterBySimilarity (θ : ℚ) (docs : List Doc) : List Doc :=
  docs.filter (fun d => decide (θ ≤ d.score))

/-- `f"{score:.2f}"`: fixed two-decimal rendering of the score. -/
def formatScore2 (q : ℚ) : String :=
  let n : ℤ := ⌊pyRound2 q * 100⌋
  let d := n.natAbs % 100
  (if n < 0 ∧ -100 < n then "-" else "") ++ toString (n / 100) ++ "." ++
    (if d < 10 then "0" else "") ++ toString d

/-- `RAGEngine._prepare_context`: one block per document, whitespace-normalized
content. -/
def prepareContext (docs : List Doc) : String :=
  String.intercalate "\n"
    (docs.enum.map (fun p =>
      "[Document " ++ toString (p.1 + 1) ++ " | Source: " ++ p.2.source ++
        " | Relevance: " ++ formatScore2 p.2.score ++ "]\n" ++
        String.mk (pyStripL (collapseWs p.2.content.data)) ++ "\n"))

/-- `RAGEngine._create_prompt`. -/
def createPrompt (query context : String) : String :=
  "\nYou are a document-based reasoning assistant.\n\nContext:\n" ++ context ++
    "\n\nUser Question:\n" ++ query ++
    "\n\nInstructions:\n- Answer the question using ONLY the provided documents.\n- Mention which document(s) support your response.\n- If information is missing, clearly state that.\n- Be concise yet coherent and logically structured.\n\nFinal Answer:\n"

/-- The LLM collaborator: each chat-completion call either returns the response
text or raises (modelled as `Except.error` carrying `str(e)`). -/
structure LLMOracle where
  expandCall : String → Except String String
  answerCall : String → Except String String

/-- Tags recording which LLM calls `generate_answer` performed, in order. -/
inductive CallTag where
  | expand
  | primary
deriving DecidableEq, Repr

/-- `RAGEngine._expand_query`: on failure of its own LLM call it falls back to
the original query (the exception is caught inside this helper). -/
def expandQuery (llm : LLMOracle) (q : String) : String :=
  match llm.expandCall q with
  | .ok resp => pyStrip resp
  | .error _ => q

/-- `RAGEngine.generate_answer`, returning the `(answer, confidence)` pair
together with the list of LLM calls that were issued.  The surrounding
`try/except` of the Python code makes every outcome a valued pair; the only
fallible steps are the collaborator calls. -/
def generateAnswer (θ : ℚ) (llm : LLMOracle) (query : String)
    (docs : List Doc) : (String × ℚ) × List CallTag :=
  let filtered := filterBySimilarity θ docs
  if filtered.isEmpty then
    (("No relevant documents found. Please rephrase your question or upload more data.", 0), [])
  else
    let context := prepareContext filtered
    let expanded := expandQuery llm query
    let prompt := createPrompt expanded context
    match llm.answerCall prompt with
    | .ok resp =>
      let answer := pyStrip resp
      ((answer, calcConfidence filtered answer), [.expand, .primary])
    | .error msg =>
      (("Error generating answer: " ++ msg, 0), [.expand, .primary])

/-- The methods defined on the `RAGEngine` class in `backend/rag_engine.py`
(attribute lookup on any other name raises `AttributeError`). -/
def ragEngineMethods : List String :=
  ["__init__", "generate_answer", "_prepare_context", "_create_prompt",
   "_filter_by_similarity", "_calculate_confidence", "_expand_query",
   "generate_summary", "extract_keywords", "evaluate_synthesis_quality"]

/-! ## Vector store metadata normalization (`backend/vector_store.py`) -/

/-- A Python metadata value: scalar or (possibly nested) list. -/
inductive MVal where
  | str : String → MVal
  | int : ℤ → MVal
  | rat : ℚ → MVal
  | bool : Bool → MVal
  | list : List MVal → MVal

/-- Is the value a list? -/
def MVal.isList : MVal → Bool
  | .list _ => true
  | _ => false

mutual
/-- Python `str()` of a metadata value. -/
def pyStrVal : MVal → String
  | .str s => s
  | .int n => toString n
  | .rat q => toString q
  | .bool b => if b then "True" else "False"
  | .list l => "[" ++ pyStrValList l ++ "]"

/-- Comma-separated rendering of a list of values. -/
def pyStrValList : List MVal → String
  | [] => ""
  | [v] => pyStrVal v
  | v :: rest => pyStrVal v ++ ", " ++ pyStrValList rest
end

/-- `", ".join(map(str, value))`. -/
def joinComma (l : List MVal) : String :=
  String.intercalate ", " (l.map pyStrVal)

/-- A metadata mapping (insertion-ordered, like a Python dict). -/
abbrev Metadata := List (String × MVal)

/-- The normalization of one value in `add_documents`: a list value is replaced
by the comma-joined string of its elements, everything else is untouched. -/
def normalizeValue : MVal → MVal
  | .list l => .str (joinComma l)
  | v => v

/-- The `add_documents` normalization loop over one metadata dict. -/
def normalizeMeta (m : Metadata) : Metadata :=
  m.map (fun kv => (kv.1, normalizeValue kv.2))

/-- Python `dict[key] = value` on the association-list model. -/
def dictSet (m : Metadata) (k : String) (v : MVal) : Metadata :=
  if m.any (fun kv => kv.1 == k) then
    m.map (fun kv => if kv.1 == k then (k, v) else kv)
  else m ++ [(k, v)]

/-- Python `dict[key]` lookup (last binding wins), with a default for the
missing-key case. -/
def dictGet (m : Metadata) (k : String) : MVal :=
  match m.reverse.find? (fun kv => kv.1 == k) with
  | some kv => kv.2
  | none => .str ""

/-- A chunk as handed to `VectorStore.add_documents`. -/
structure ChunkRecord where
  content : String
  metadata : Metadata

/-- The metadata dicts that `add_documents` hands to the index collaborator:
document metadata plus `source` and `chunk_id`, then list values flattened. -/
def addDocumentsMetas (chunks : List ChunkRecord) (source : String) :
    List Metadata :=
  let metas := chunks.map (fun ch =>
    let docId := source ++ "_" ++ pyStrVal (dictGet ch.metadata "chunk_index")
    dictSet (dictSet ch.metadata "source" (.str source)) "chunk_id" (.str docId))
  metas.map normalizeMeta

/-! ## Concrete data used by witnesses and counterexamples -/

/-- A 60-character decoded window text (long enough to be kept). -/
def longText : String := String.mk (List.replicate 60 'a')

/-- A decoder under which exactly the middle window `[1, 2]` of the
counterexample run decodes to a short (≤ 50 chars) text. -/
def decSparse : List Nat → String := fun ts => if ts = [1, 2] then "x" else longText

/-- A decoder under which every window text is long (kept). -/
def decAll : List Nat → String := fun _ => longText

/-- A decoder under which every window text is empty (dropped). -/
def decEmpty : List Nat → String := fun _ => ""

/-- The window list produced by `splitIntoChunks 2 1 decAll [0, 1, 2]`. -/
def wsEx : List Window := [⟨0, 2, longText, true⟩, ⟨1, 3, longText, true⟩]

/-- Three retrieved results with scores 0.9 / 0.5 / 0.2. -/
def exampleDocs : List Doc :=
  [⟨"high relevance", "doc1.pdf", 9/10⟩, ⟨"medium relevance", "doc2.pdf", 5/10⟩,
   ⟨"low relevance", "doc3.pdf", 2/10⟩]

/-- A chunk carrying a list-valued metadata entry. -/
def exampleChunk : ChunkRecord :=
  ⟨"chunk text", [("chunk_index", .int 0), ("topics", .list [.str "Alpha", .str "Beta"])]⟩

/-- An LLM collaborator that always succeeds. -/
def trivialLLM : LLMOracle := ⟨fun _ => .ok "", fun _ => .ok ""⟩

/-- An LLM collaborator whose primary call always raises. -/
def failingLLM : LLMOracle := ⟨fun _ => .ok "expanded terms", fun _ => .error "API Error"⟩

/-! ## Theorems -/

/-- C2: if no result reaches the similarity threshold, `generate_answer` returns
the fixed "no relevant documents" message with confidence exactly 0 and issues
no LLM call at all (the call trace is empty); the pair is returned directly,
with no retry. -/
theorem c2_empty_filter_terminal (θ : ℚ) (llm : LLMOracle) (query : String)
    (docs : List Doc) (h : ∀ d ∈ docs, d.score < θ) :
    generateAnswer θ llm query docs =
      (("No relevant documents found. Please rephrase your question or upload more data.", 0),
        []) := by
  have hf : filterBySimilarity θ docs = [] := by
    simp only [filterBySimilarity, List.filter_eq_nil_iff, decide_eq_true_eq]
    exact fun d hd hle => absurd (h d hd) (not_lt.mpr hle)
  simp [generateAnswer, hf]

/-- Witness for C2 at a concrete input: one result with score 0.1 against
threshold 0.3. -/
theorem c2_empty_filter_terminal_witness :
    generateAnswer (3/10) trivialLLM "test query" [⟨"Unrelated content", "test_doc.pdf", 1/10⟩] =
      (("No relevant documents found. Please rephrase your question or upload more data.", 0),
        []) :=
  c2_empty_filter_terminal (3/10) trivialLLM "test query"
    [⟨"Unrelated content", "test_doc.pdf", 1/10⟩]
    (by intro d hd; rw [List.mem_singleton] at hd; subst hd; norm_num)

/-- C3: when the primary LLM call raises, `generate_answer` returns the valued
pair `("Error generating answer: " ++ msg, 0)` — no exception reaches the
caller — and the call trace shows a single primary attempt (no retry). -/
theorem c3_primary_error_valued (θ : ℚ) (llm : LLMOracle) (query : String)
    (docs : List Doc) (msg : String)
    (hfail : ∀ p, llm.answerCall p = .error msg)
    (hne : filterBySimilarity θ docs ≠ []) :
    generateAnswer θ llm query docs =
      (("Error generating answer: " ++ msg, 0), [CallTag.expand, CallTag.primary]) := by
  rcases hfe : filterBySimilarity θ docs with _ | ⟨d, rest⟩
  · exact absurd hfe hne
  · simp [generateAnswer, hfe, hfail]

/-- Witness for C3 at a concrete input: a collaborator raising "API Error" on
every primary call, one surviving document. -/
theorem c3_primary_error_valued_witness :
    generateAnswer (3/10) failingLLM "test query" [⟨"Test content", "test_doc.pdf", 9/10⟩] =
      (("Error generating answer: API Error", 0), [CallTag.expand, CallTag.primary]) :=
  c3_primary_error_valued (3/10) failingLLM "test query"
    [⟨"Test content", "test_doc.pdf", 9/10⟩] "API Error" (fun _ => rfl)
    (by show List.filter _ _ ≠ _; rw [List.filter_cons]; norm_num)

/-- C7: `_filter_by_similarity` returns an order-preserving subsequence of its
input, containing exactly the elements with score at or above the threshold;
with threshold 0.3 the scores `[0.9, 0.5, 0.2]` are filtered to `[0.9, 0.5]`. -/
theorem c7_filter_by_similarity (θ : ℚ) (docs : List Doc) :
    (filterBySimilarity θ docs).Sublist docs ∧
    (∀ d ∈ filterBySimilarity θ docs, θ ≤ d.score) ∧
    (∀ d ∈ docs, θ ≤ d.score → d ∈ filterBySimilarity θ docs) ∧
    (filterBySimilarity (3/10) exampleDocs).map Doc.score = [9/10, 5/10] := by
  refine ⟨List.filter_sublist docs, ?_, ?_, ?_⟩
  · intro d hd
    simp only [filterBySimilarity] at hd
    exact of_decide_eq_true ((List.mem_filter.mp hd).2)
  · intro d hd hs
    simp only [filterBySimilarity]
    exact List.mem_filter_of_mem hd (decide_eq_true hs)
  · show (List.filter _ _).map _ = _
    rw [exampleDocs, List.filter_cons, List.filter_cons, List.filter_cons]
    norm_num

/-- Witness for C7 at a concrete input: the 0.9-scored document survives the
0.3 threshold. -/
theorem c7_filter_by_similarity_witness :
    (⟨"high relevance", "doc1.pdf", 9/10⟩ : Doc) ∈ filterBySimilarity (3/10) exampleDocs :=
  (c7_filter_by_similarity (3/10) exampleDocs).2.2.1
    ⟨"high relevance", "doc1.pdf", 9/10⟩
    (by rw [exampleDocs]; exact List.mem_cons_self _ _) (by norm_num)

/-- C9: the rerank operation does not exist on `RAGEngine` — the class defines
no `_rerank_documents` method even though the repository's own test
`test_rerank_documents` calls it. -/
theorem c9_rerank_missing : "_rerank_documents" ∉ ragEngineMethods := by decide

/-- C8: every metadata value handed to the index collaborator by
`add_documents` is a non-list value — the normalization step replaced each
list by the comma-joined string of its rendered elements. -/
theorem c8_metadata_normalized (chunks : List ChunkRecord) (source : String) :
    ∀ m ∈ addDocumentsMetas chunks source, ∀ kv ∈ m, kv.2.isList = false := by
  intro m hm kv hkv
  simp only [addDocumentsMetas, List.mem_map] at hm
  obtain ⟨m₀, _, rfl⟩ := hm
  simp only [normalizeMeta, List.mem_map] at hkv
  obtain ⟨kv₀, _, rfl⟩ := hkv
  cases h : kv₀.2 <;> simp [normalizeValue, MVal.isList]

/-- Witness for C8 at a concrete input: a chunk with a list-valued `topics`
entry yields the flat string "Alpha, Beta" in the indexed metadata. -/
theorem c8_metadata_normalized_witness :
    (("topics", MVal.str "Alpha, Beta") : String × MVal).2.isList = false := by
  have hM : addDocumentsMetas [exampleChunk] "doc" =
      [[("chunk_index", MVal.int 0), ("topics", MVal.str "Alpha, Beta"),
        ("source", MVal.str "doc"), ("chunk_id", MVal.str "doc_0")]] := rfl
  exact c8_metadata_normalized [exampleChunk] "doc"
    [("chunk_index", MVal.int 0), ("topics", MVal.str "Alpha, Beta"),
     ("source", MVal.str "doc"), ("chunk_id", MVal.str "doc_0")]
    (by rw [hM]; exact List.mem_cons_self _ _)
    ("topics", MVal.str "Alpha, Beta")
    (List.mem_cons_of_mem _ (List.mem_cons_self _ _))

/-! ### Confidence bounds (C4) -/

/-- `round(x, 2)` of a nonnegative rational is nonnegative. -/
theorem pyRound2_nonneg {x : ℚ} (hx : 0 ≤ x) : 0 ≤ pyRound2 x := by
  have hn : (0 : ℤ) ≤ ⌊x * 100⌋ := Int.floor_nonneg.mpr (by positivity)
  have h0 : (0 : ℚ) ≤ (⌊x * 100⌋ : ℚ) := by exact_mod_cast hn
  have h1 : (0 : ℚ) ≤ ((⌊x * 100⌋ + 1 : ℤ) : ℚ) := by
    exact_mod_cast (by omega : (0 : ℤ) ≤ ⌊x * 100⌋ + 1)
  simp only [pyRound2]
  split
  · exact div_nonneg h0 (by norm_num)
  · split
    · exact div_nonneg h1 (by norm_num)
    · split
      · exact div_nonneg h0 (by norm_num)
      · exact div_nonneg h1 (by norm_num)

/-- `round(x, 2)` of a rational at most 1 is at most 1. -/
theorem pyRound2_le_one {x : ℚ} (hx : x ≤ 1) : pyRound2 x ≤ 1 := by
  have hfl : (⌊x * 100⌋ : ℚ) ≤ x * 100 := Int.floor_le _
  have h100 : ⌊x * 100⌋ ≤ 100 := by
    have h : x * 100 ≤ ((100 : ℤ) : ℚ) := by push_cast; linarith
    calc ⌊x * 100⌋ ≤ ⌊((100 : ℤ) : ℚ)⌋ := Int.floor_le_floor h
      _ = 100 := Int.floor_intCast 100
  simp only [pyRound2]
  split
  · rw [div_le_one (by norm_num)]
    exact_mod_cast h100
  · rename_i hlt
    split
    · rename_i hgt
      have hq : (⌊x * 100⌋ : ℚ) < 100 := by linarith
      have h99 : ⌊x * 100⌋ ≤ 99 := by
        have : ⌊x * 100⌋ < 100 := by exact_mod_cast hq
        omega
      rw [div_le_one (by norm_num)]
      exact_mod_cast (by omega : ⌊x * 100⌋ + 1 ≤ 100)
    · rename_i hgt
      have heq : x * 100 - (⌊x * 100⌋ : ℚ) = 1/2 := le_antisymm (not_lt.mp hgt) (not_lt.mp hlt)
      have hq : (⌊x * 100⌋ : ℚ) ≤ 100 - 1/2 := by linarith
      have h99 : ⌊x * 100⌋ ≤ 99 := by
        have : (⌊x * 100⌋ : ℚ) < 100 := by linarith
        have : ⌊x * 100⌋ < 100 := by exact_mod_cast this
        omega
      split
      · rw [div_le_one (by norm_num)]
        exact_mod_cast h100
      · rw [div_le_one (by norm_num)]
        exact_mod_cast (by omega : ⌊x * 100⌋ + 1 ≤ 100)

/-- A sum of nonnegative rationals is nonnegative. -/
theorem sum_nonneg_of_mem : ∀ (l : List ℚ), (∀ w ∈ l, 0 ≤ w) → 0 ≤ l.sum
  | [], _ => by simp
  | w :: l, h => by
    simp only [List.sum_cons]
    have h1 := h w (List.mem_cons_self _ _)
    have h2 := sum_nonneg_of_mem l (fun x hx => h x (List.mem_cons_of_mem _ hx))
    linarith

/-- The pairwise-product sum is nonnegative when both sides are. -/
theorem zipWith_mul_sum_nonneg :
    ∀ (ss ws : List ℚ), (∀ s ∈ ss, 0 ≤ s) → (∀ w ∈ ws, 0 ≤ w) →
      0 ≤ (List.zipWith (· * ·) ss ws).sum
  | [], _, _, _ => by simp
  | _ :: _, [], _, _ => by simp
  | s :: ss, w :: ws, hs, hw => by
    simp only [List.zipWith_cons_cons, List.sum_cons]
    have h1 : 0 ≤ s * w :=
      mul_nonneg (hs s (List.mem_cons_self _ _)) (hw w (List.mem_cons_self _ _))
    have h2 := zipWith_mul_sum_nonneg ss ws
      (fun x hx => hs x (List.mem_cons_of_mem _ hx))
      (fun x hx => hw x (List.mem_cons_of_mem _ hx))
    linarith

/-- The pairwise-product sum is bounded by the weight sum when the left factors
are at most 1 and the weights nonnegative. -/
theorem zipWith_mul_sum_le :
    ∀ (ss ws : List ℚ), (∀ s ∈ ss, s ≤ 1) → (∀ w ∈ ws, 0 ≤ w) →
      (List.zipWith (· * ·) ss ws).sum ≤ ws.sum
  | [], ws, _, hw => by
    simp only [List.zipWith_nil_left, List.sum_nil]
    exact sum_nonneg_of_mem ws hw
  | _ :: _, [], _, _ => by simp
  | s :: ss, w :: ws, hs, hw => by
    simp only [List.zipWith_cons_cons, List.sum_cons]
    have hw0 : 0 ≤ w := hw w (List.mem_cons_self _ _)
    have hs1 : s ≤ 1 := hs s (List.mem_cons_self _ _)
    have h1 : s * w ≤ w := by nlinarith
    have h2 := zipWith_mul_sum_le ss ws
      (fun x hx => hs x (List.mem_cons_of_mem _ hx))
      (fun x hx => hw x (List.mem_cons_of_mem _ hx))
    linarith

/-- Every positional weight lies in (0, 1]. -/
theorem confWeights_pos : ∀ w ∈ confWeights, 0 < w := by
  intro w hw
  fin_cases hw <;> norm_num

/-- The weighted similarity lies in `[0, 1]` when every score does. -/
theorem weightedSimilarity_bounds (docs : List Doc) (hne : docs ≠ [])
    (h : ∀ d ∈ docs, 0 ≤ d.score ∧ d.score ≤ 1) :
    0 ≤ weightedSimilarity docs ∧ weightedSimilarity docs ≤ 1 := by
  have hwnn : ∀ w ∈ confWeights.take (docs.map Doc.score).length, (0 : ℚ) ≤ w :=
    fun w hw => le_of_lt (confWeights_pos w (List.mem_of_mem_take hw))
  have hsnn : ∀ s ∈ docs.map Doc.score, (0 : ℚ) ≤ s := by
    intro s hs
    obtain ⟨d, hd, rfl⟩ := List.mem_map.mp hs
    exact (h d hd).1
  have hsle : ∀ s ∈ docs.map Doc.score, s ≤ (1 : ℚ) := by
    intro s hs
    obtain ⟨d, hd, rfl⟩ := List.mem_map.mp hs
    exact (h d hd).2
  have hwpos : 0 < (confWeights.take (docs.map Doc.score).length).sum := by
    cases docs with
    | nil => exact absurd rfl hne
    | cons d ds =>
      have : confWeights.take ((d :: ds).map Doc.score).length =
          1 :: [4/5, 3/5, 2/5, 1/5].take (ds.map Doc.score).length := by
        simp [confWeights]
      rw [this, List.sum_cons]
      have : (0 : ℚ) ≤ ([4/5, 3/5, 2/5, 1/5].take (ds.map Doc.score).length).sum := by
        apply sum_nonneg_of_mem
        intro w hw
        have := List.mem_of_mem_take hw
        fin_cases this <;> norm_num
      linarith
  unfold weightedSimilarity
  constructor
  · exact div_nonneg (zipWith_mul_sum_nonneg _ _ hsnn hwnn) (le_of_lt hwpos)
  · rw [div_le_one hwpos]
    exact zipWith_mul_sum_le _ _ hsle hwnn

/-- The coherence heuristic lies in `[0, 1]`. -/
theorem coherenceScore_bounds (answer : String) :
    0 ≤ coherenceScore answer ∧ coherenceScore answer ≤ 1 := by
  unfold coherenceScore
  exact ⟨le_min (by positivity) (by norm_num), min_le_right _ _⟩

/-- C4 (amended): for result lists whose scores all lie in `[0, 1]` — as the
pipeline guarantees after threshold filtering with a nonnegative threshold —
`_calculate_confidence` returns a value in `[0, 1]`; it returns exactly 0 on
the empty list, and otherwise equals
`round(min(0.7 * weighted_similarity + 0.3 * coherence, 1.0), 2)`. -/
theorem c4_confidence_bounds (docs : List Doc) (answer : String)
    (h : ∀ d ∈ docs, 0 ≤ d.score ∧ d.score ≤ 1) :
    0 ≤ calcConfidence docs answer ∧ calcConfidence docs answer ≤ 1 ∧
    (docs = [] → calcConfidence docs answer = 0) ∧
    (docs ≠ [] → calcConfidence docs answer =
      pyRound2 (min (weightedSimilarity docs * (7/10) + coherenceScore answer * (3/10)) 1)) := by
  by_cases hd : docs = []
  · subst hd
    refine ⟨le_refl 0, by simp [calcConfidence], fun _ => rfl, fun h' => absurd rfl h'⟩
  · have hcalc : calcConfidence docs answer =
        pyRound2 (min (weightedSimilarity docs * (7/10) + coherenceScore answer * (3/10)) 1) := by
      rw [calcConfidence, if_neg]
      simp [List.isEmpty_eq_false.mpr hd]
    have hws := weightedSimilarity_bounds docs hd h
    have hch := coherenceScore_bounds answer
    have hmin0 : 0 ≤ min (weightedSimilarity docs * (7/10) + coherenceScore answer * (3/10)) 1 := by
      apply le_min _ (by norm_num)
      have := hws.1
      have := hch.1
      nlinarith
    have hmin1 : min (weightedSimilarity docs * (7/10) + coherenceScore answer * (3/10)) 1 ≤ 1 :=
      min_le_right _ _
    rw [hcalc]
    exact ⟨pyRound2_nonneg hmin0, pyRound2_le_one hmin1, fun h' => absurd h' hd, fun _ => rfl⟩

/-- Witness for C4 at a concrete input: one document with score 0.9 and a
one-sentence answer. -/
theorem c4_confidence_bounds_witness :
    0 ≤ calcConfidence [⟨"a", "s", 9/10⟩] "Hi." ∧
      calcConfidence [⟨"a", "s", 9/10⟩] "Hi." ≤ 1 ∧
      (([⟨"a", "s", 9/10⟩] : List Doc) = [] → calcConfidence [⟨"a", "s", 9/10⟩] "Hi." = 0) ∧
      (([⟨"a", "s", 9/10⟩] : List Doc) ≠ [] → calcConfidence [⟨"a", "s", 9/10⟩] "Hi." =
        pyRound2 (min (weightedSimilarity [⟨"a", "s", 9/10⟩] * (7/10) +
          coherenceScore "Hi." * (3/10)) 1)) :=
  c4_confidence_bounds [⟨"a", "s", 9/10⟩] "Hi."
    (by intro d hd; rw [List.mem_singleton] at hd; subst hd; constructor <;> norm_num)

/-- Counterexample for C4 as frozen: on a result list with the score `-1`
(scores are `1 - distance` and may be negative for cosine distance above 1)
`_calculate_confidence` returns `-0.7`, which lies outside `[0, 1]`. -/
theorem c4_counterexample :
    calcConfidence [⟨"", "", -1⟩] "" = -7/10 ∧
      ¬(0 ≤ calcConfidence [⟨"", "", -1⟩] "") := by
  have h1 : calcConfidence [⟨"", "", -1⟩] "" = -7/10 := by
    have hws : weightedSimilarity [⟨"", "", -1⟩] = -1 := by
      simp [weightedSimilarity, confWeights]
    have hch : coherenceScore "" = 0 := by
      simp [coherenceScore]
    rw [calcConfidence, if_neg (by simp), hws, hch]
    have hmin : min ((-1 : ℚ) * (7/10) + 0 * (3/10)) 1 = -7/10 := by norm_num
    rw [hmin]
    simp only [pyRound2]
    norm_num
  refine ⟨h1, by rw [h1]; norm_num⟩

/-! ### Chunking loop lemmas (C1, C5, C6) -/

/-- The window end never exceeds the token count. -/
theorem windowEnd_le (cs : Nat) (tokens : List Nat) (s : Int) :
    windowEnd cs tokens s ≤ (tokens.length : Int) :=
  min_le_right _ _

/-- The window end never exceeds `start + chunkSize`. -/
theorem windowEnd_le_add (cs : Nat) (tokens : List Nat) (s : Int) :
    windowEnd cs tokens s ≤ s + (cs : Int) :=
  min_le_left _ _

/-- The window end is one of its two bounds. -/
theorem windowEnd_choice (cs : Nat) (tokens : List Nat) (s : Int) :
    windowEnd cs tokens s = s + (cs : Int) ∨ windowEnd cs tokens s = (tokens.length : Int) :=
  min_choice _ _

/-- Windows already accumulated survive to the loop's result. -/
theorem splitLoop_mem_acc (cs ov : Nat) (dec : List Nat → String) (tokens : List Nat) :
    ∀ (fuel : Nat) (s : Int) (acc ws : List Window),
      splitLoop cs ov dec tokens fuel s acc = some ws → ∀ w ∈ acc, w ∈ ws := by
  intro fuel
  induction fuel with
  | zero =>
    intro s acc ws h
    simp [splitLoop] at h
  | succ n ih =>
    intro s acc ws h
    simp only [splitLoop] at h
    split at h
    · split at h
      · injection h with h'
        subst h'
        exact fun w hw => List.mem_append_left _ hw
      · exact fun w hw => ih _ _ _ h w (List.mem_append_left _ hw)
    · injection h with h'
      subst h'
      exact fun w hw => hw

/-- Every token index from the current start to the end of the token list is
covered by some window of a successful loop run. -/
theorem splitLoop_covers (cs ov : Nat) (dec : List Nat → String) (tokens : List Nat) :
    ∀ (fuel : Nat) (s : Int) (acc ws : List Window),
      splitLoop cs ov dec tokens fuel s acc = some ws →
      ∀ t : Nat, s ≤ (t : Int) → (t : Int) < (tokens.length : Int) →
        ∃ w ∈ ws, w.startTok ≤ (t : Int) ∧ (t : Int) < w.endTok := by
  intro fuel
  induction fuel with
  | zero =>
    intro s acc ws h
    simp [splitLoop] at h
  | succ n ih =>
    intro s acc ws h t hst htl
    simp only [splitLoop] at h
    split at h
    · rename_i hs
      split at h
      · rename_i hbrk
        injection h with h'
        subst h'
        refine ⟨mkWindow cs dec tokens s,
          List.mem_append_right _ (List.mem_singleton.mpr rfl), hst, ?_⟩
        have h1 := windowEnd_le cs tokens s
        show (t : Int) < windowEnd cs tokens s
        omega
      · rename_i hbrk
        by_cases hte : (t : Int) < windowEnd cs tokens s
        · have hmem : mkWindow cs dec tokens s ∈ ws :=
            splitLoop_mem_acc cs ov dec tokens _ _ _ _ h _
              (List.mem_append_right _ (List.mem_singleton.mpr rfl))
          exact ⟨mkWindow cs dec tokens s, hmem, hst, hte⟩
        · exact ih _ _ _ h t (by omega) htl
    · rename_i hs
      exact absurd (lt_of_le_of_lt hst htl) hs

/-- Every window recorded by a successful loop run satisfies any property that
all freshly built windows satisfy. -/
theorem splitLoop_all_windows (cs ov : Nat) (dec : List Nat → String)
    (tokens : List Nat) (P : Window → Prop)
    (hmk : ∀ s : Int, P (mkWindow cs dec tokens s)) :
    ∀ (fuel : Nat) (s : Int) (acc ws : List Window),
      splitLoop cs ov dec tokens fuel s acc = some ws →
      (∀ w ∈ acc, P w) → ∀ w ∈ ws, P w := by
  intro fuel
  induction fuel with
  | zero =>
    intro s acc ws h
    simp [splitLoop] at h
  | succ n ih =>
    intro s acc ws h hacc
    simp only [splitLoop] at h
    split at h
    · have hacc' : ∀ w ∈ acc ++ [mkWindow cs dec tokens s], P w := by
        intro w hw
        rcases List.mem_append.mp hw with hw | hw
        · exact hacc w hw
        · rw [List.mem_singleton] at hw
          subst hw
          exact hmk s
      split at h
      · injection h with h'
        subst h'
        exact hacc'
      · exact ih _ _ _ h hacc'
    · injection h with h'
      subst h'
      exact hacc

/-- Successive windows of a successful loop run are chained by
`next.start = previous.end - overlap`. -/
theorem splitLoop_chain (cs ov : Nat) (dec : List Nat → String) (tokens : List Nat) :
    ∀ (fuel : Nat) (s : Int) (acc ws : List Window),
      splitLoop cs ov dec tokens fuel s acc = some ws →
      List.Chain' (fun a b => b.startTok = a.endTok - (ov : Int)) acc →
      (∀ last ∈ acc.getLast?, s = last.endTok - (ov : Int)) →
      List.Chain' (fun a b => b.startTok = a.endTok - (ov : Int)) ws := by
  intro fuel
  induction fuel with
  | zero =>
    intro s acc ws h
    simp [splitLoop] at h
  | succ n ih =>
    intro s acc ws h hch hlast
    simp only [splitLoop] at h
    split at h
    · have hch' : List.Chain' (fun a b => b.startTok = a.endTok - (ov : Int))
          (acc ++ [mkWindow cs dec tokens s]) := by
        rw [List.chain'_append]
        refine ⟨hch, List.chain'_singleton _, ?_⟩
        intro x hx y hy
        simp only [List.head?_cons, Option.mem_def, Option.some.injEq] at hy
        subst hy
        exact hlast x hx
      split at h
      · injection h with h'
        subst h'
        exact hch'
      · apply ih _ _ _ h hch'
        intro last hl
        rw [List.getLast?_concat] at hl
        simp only [Option.mem_def, Option.some.injEq] at hl
        subst hl
        rfl
    · injection h with h'
      subst h'
      exact hch

/-- The loop finishes within `distance-to-end + 1` iterations whenever
`overlap < chunkSize`. -/
theorem splitLoop_isSome (cs ov : Nat) (dec : List Nat → String) (tokens : List Nat)
    (hov : ov < cs) :
    ∀ (n : Nat) (s : Int) (acc : List Window), 0 ≤ s →
      (tokens.length : Int) - s ≤ (n : Int) →
      (splitLoop cs ov dec tokens (n + 1) s acc).isSome := by
  intro n
  induction n with
  | zero =>
    intro s acc h0 hle
    simp only [splitLoop]
    split
    · rename_i hs
      exact absurd hs (by omega)
    · simp
  | succ n ih =>
    intro s acc h0 hle
    simp only [splitLoop]
    split
    · rename_i hs
      split
      · simp
      · rename_i hbrk
        have hc := windowEnd_choice cs tokens s
        have hl := windowEnd_le cs tokens s
        apply ih
        · omega
        · omega
    · simp

/-- A document of at most `chunkSize` tokens makes the loop stop after at most
one window. -/
theorem splitIntoChunks_short (cs ov : Nat) (dec : List Nat → String)
    (tokens : List Nat) (hlen : tokens.length ≤ cs) :
    ∀ ws, splitIntoChunks cs ov dec tokens = some ws → ws.length ≤ 1 := by
  intro ws h
  rw [splitIntoChunks] at h
  simp only [splitLoop] at h
  split at h
  · rename_i hs
    split at h
    · injection h with h'
      subst h'
      simp
    · rename_i hbrk
      exfalso
      have h1 := windowEnd_le cs tokens 0
      have h2 := windowEnd_choice cs tokens 0
      omega
  · injection h with h'
    subst h'
    simp

/-- C1 (amended): the chunking loop terminates for every input text whenever
`overlap < chunkSize` (fuel `len(tokens) + 1` suffices); the frozen claim's
degenerate case `overlap ≥ chunkSize` in fact loops forever on any text longer
than `chunkSize` tokens, see the counterexample. -/
theorem c1_terminates_of_overlap_lt (cs ov : Nat) (dec : List Nat → String)
    (tokens : List Nat) (hov : ov < cs) :
    splitTerminates cs ov dec tokens :=
  ⟨tokens.length + 1,
    splitLoop_isSome cs ov dec tokens hov tokens.length 0 [] le_rfl (by omega)⟩

/-- Witness for C1's amended statement at a concrete input:
`chunkSize = 2, overlap = 1` over three tokens. -/
theorem c1_terminates_of_overlap_lt_witness :
    splitTerminates 2 1 decEmpty [0, 1, 2] :=
  c1_terminates_of_overlap_lt 2 1 decEmpty [0, 1, 2] (by decide)

/-- With `chunkSize = overlap = 1` on two tokens the loop re-enters the same
state forever: no fuel makes it finish. -/
theorem splitLoop_one_one_stuck :
    ∀ (fuel : Nat) (acc : List Window),
      splitLoop 1 1 decEmpty [0, 1] fuel 0 acc = none := by
  intro fuel
  induction fuel with
  | zero => intro acc; rfl
  | succ n ih =>
    intro acc
    have hstep : splitLoop 1 1 decEmpty [0, 1] (n + 1) 0 acc =
        splitLoop 1 1 decEmpty [0, 1] n 0 (acc ++ [mkWindow 1 decEmpty [0, 1] 0]) := rfl
    rw [hstep]
    exact ih _

/-- Counterexample for C1 as frozen: with `overlap = chunkSize = 1` and a
two-token text, the `start >= len(tokens) - overlap` stop condition never
fires (`start` stays 0), so the loop does not terminate. -/
theorem c1_counterexample : ¬ splitTerminates 1 1 decEmpty [0, 1] := by
  rintro ⟨fuel, hs⟩
  rw [splitLoop_one_one_stuck fuel []] at hs
  simp at hs

/-- C5: for a successful chunking run, every token index below the token count
is covered by some recorded window, and every window was either emitted or had
trimmed decoded text of at most 50 characters; a text of at most `chunkSize`
tokens yields at most one chunk. -/
theorem c5_chunk_coverage (cs ov : Nat) (dec : List Nat → String)
    (tokens : List Nat) (ws : List Window)
    (h : splitIntoChunks cs ov dec tokens = some ws) :
    (cs < tokens.length → ∀ t : Nat, t < tokens.length →
      ∃ w ∈ ws, w.startTok ≤ (t : Int) ∧ (t : Int) < w.endTok ∧
        (w.kept = true ∨ (pyStripL w.text.data).length ≤ 50)) ∧
    (tokens.length ≤ cs → (windowChunks ws).length ≤ 1) := by
  constructor
  · intro _ t ht
    obtain ⟨w, hw, h1, h2⟩ :=
      splitLoop_covers cs ov dec tokens _ 0 [] ws h t (Int.ofNat_nonneg t)
        (by exact_mod_cast ht)
    have hP := splitLoop_all_windows cs ov dec tokens
      (fun w => w.kept = true ∨ (pyStripL w.text.data).length ≤ 50)
      (fun s => by
        by_cases h50 : 50 <
            (pyStripL (dec (pySlice tokens s (windowEnd cs tokens s))).data).length
        · exact Or.inl (decide_eq_true h50)
        · exact Or.inr (Nat.not_lt.mp h50))
      _ 0 [] ws h (by simp) w hw
    exact ⟨w, hw, h1, h2, hP⟩
  · intro hlen
    calc (windowChunks ws).length ≤ ws.length := List.length_filter_le _ _
      _ ≤ 1 := splitIntoChunks_short cs ov dec tokens hlen ws h

/-- Witness for C5 at a concrete input: `chunkSize = 2, overlap = 1` over three
tokens, all windows kept; token index 1 is covered. -/
theorem c5_chunk_coverage_witness :
    ∃ w ∈ wsEx, w.startTok ≤ ((1 : Nat) : Int) ∧ ((1 : Nat) : Int) < w.endTok ∧
      (w.kept = true ∨ (pyStripL w.text.data).length ≤ 50) := by
  have hrun : splitIntoChunks 2 1 decAll [0, 1, 2] = some wsEx := by decide
  exact (c5_chunk_coverage 2 1 decAll [0, 1, 2] wsEx hrun).1 (by decide) 1 (by decide)

/-- C6 (amended): in a successful chunking run, each recorded window starts at
the previous window's end minus the overlap; every emitted chunk spans at most
`chunkSize` tokens; and when no window is dropped by the 50-character rule the
same chain relation holds between chunks of consecutive `chunk_index` (the
frozen per-index claim fails when a middle window is dropped, see the
counterexample). -/
theorem c6_overlap_invariant (cs ov : Nat) (dec : List Nat → String)
    (tokens : List Nat) (ws : List Window)
    (h : splitIntoChunks cs ov dec tokens = some ws) :
    List.Chain' (fun a b => b.startTok = a.endTok - (ov : Int)) ws ∧
    (∀ w ∈ windowChunks ws, w.endTok - w.startTok ≤ (cs : Int)) ∧
    ((∀ w ∈ ws, w.kept = true) →
      List.Chain' (fun a b => b.startTok = a.endTok - (ov : Int)) (windowChunks ws)) := by
  have hchain := splitLoop_chain cs ov dec tokens _ 0 [] ws h List.chain'_nil
    (by intro last hl; simp at hl)
  refine ⟨hchain, ?_, ?_⟩
  · intro w hw
    exact splitLoop_all_windows cs ov dec tokens
      (fun w => w.endTok - w.startTok ≤ (cs : Int))
      (fun s => by
        have := windowEnd_le_add cs tokens s
        show windowEnd cs tokens s - s ≤ (cs : Int)
        omega)
      _ 0 [] ws h (by simp) w (List.mem_of_mem_filter hw)
  · intro hall
    have heq : windowChunks ws = ws := List.filter_eq_self.mpr (fun w hw => hall w hw)
    rw [heq]
    exact hchain

/-- Witness for C6's amended statement at a concrete all-kept run. -/
theorem c6_overlap_invariant_witness :
    List.Chain' (fun a b => b.startTok = a.endTok - ((1 : Nat) : Int)) wsEx := by
  have hrun : splitIntoChunks 2 1 decAll [0, 1, 2] = some wsEx := by decide
  exact (c6_overlap_invariant 2 1 decAll [0, 1, 2] wsEx hrun).1

/-- Counterexample for C6 as frozen: with `chunkSize = 2, overlap = 1` over
four tokens and a decoder making only the middle window short, the emitted
chunks with `chunk_index` 0 and 1 have `start_token 2 ≠ end_token 2 - overlap
1`, and chunk 0's window is not the final one (three windows were processed). -/
theorem c6_counterexample :
    (splitIntoChunks 2 1 decSparse [0, 1, 2, 3]).map
        (fun ws => ws.map (fun w => (w.startTok, w.endTok, w.kept))) =
      some [(0, 2, true), (1, 3, false), (2, 4, true)] ∧
    (splitIntoChunks 2 1 decSparse [0, 1, 2, 3]).map
        (fun ws => (windowChunks ws).map (fun w => (w.startTok, w.endTok))) =
      some [(0, 2), (2, 4)] ∧
    ¬((2 : Int) = 2 - (1 : Int)) := by
  refine ⟨by decide, by decide, by decide⟩

/-! ### Text cleaning (C10) -/

/-- Every whitespace character that survives whitespace collapsing is the
plain space that replaced its run. -/
theorem collapseWs_space : ∀ (l : List Char), ∀ c ∈ collapseWs l,
    isPySpace c = true → c = ' ' := by
  intro l
  induction l using collapseWs.induct with
  | case1 => simp [collapseWs]
  | case2 c h => simp [collapseWs, h]
  | case3 c h =>
    simp only [collapseWs, if_neg h]
    intro x hx hsp
    rw [List.mem_singleton] at hx
    subst hx
    exact absurd hsp h
  | case4 c d rest h1 h2 ih =>
    simp only [collapseWs, if_pos h1, if_pos h2]
    exact ih
  | case5 c d rest h1 h2 ih =>
    simp only [collapseWs, if_pos h1, if_neg h2]
    intro x hx hsp
    rcases List.mem_cons.mp hx with rfl | hx
    · rfl
    · exact ih x hx hsp
  | case6 c d rest h1 ih =>
    simp only [collapseWs, if_neg h1]
    intro x hx hsp
    rcases List.mem_cons.mp hx with rfl | hx
    · exact absurd hsp h1
    · exact ih x hx hsp

/-- Whitespace collapsing keeps a non-whitespace head in place. -/
theorem collapseWs_head (c : Char) (rest : List Char) (h : ¬isPySpace c = true) :
    (collapseWs (c :: rest)).head? = some c := by
  cases rest with
  | nil => simp [collapseWs, h]
  | cons d r => simp [collapseWs, h]

/-- After whitespace collapsing no two adjacent characters are both
whitespace. -/
theorem collapseWs_chain : ∀ (l : List Char),
    List.Chain' (fun a b => ¬(isPySpace a = true ∧ isPySpace b = true)) (collapseWs l) := by
  intro l
  induction l using collapseWs.induct with
  | case1 => simp [collapseWs]
  | case2 c h => simp [collapseWs, h]
  | case3 c h => simp [collapseWs, h]
  | case4 c d rest h1 h2 ih => simpa only [collapseWs, if_pos h1, if_pos h2] using ih
  | case5 c d rest h1 h2 ih =>
    simp only [collapseWs, if_pos h1, if_neg h2]
    rw [List.chain'_cons']
    refine ⟨?_, ih⟩
    intro y hy
    rw [collapseWs_head d rest h2] at hy
    simp only [Option.mem_def, Option.some.injEq] at hy
    subst hy
    exact fun hcon => h2 hcon.2
  | case6 c d rest h1 ih =>
    simp only [collapseWs, if_neg h1]
    rw [List.chain'_cons']
    refine ⟨?_, ih⟩
    exact fun y _ hcon => h1 hcon.1

/-- Whitespace collapsing is the identity on a list whose whitespace is
already single plain spaces. -/
theorem collapseWs_id : ∀ (l : List Char),
    (∀ c ∈ l, isPySpace c = true → c = ' ') →
    List.Chain' (fun a b => ¬(isPySpace a = true ∧ isPySpace b = true)) l →
    collapseWs l = l := by
  intro l
  induction l using collapseWs.induct with
  | case1 => intro _ _; rfl
  | case2 c h =>
    intro hsp _
    have hc := hsp c (List.mem_singleton.mpr rfl) h
    simp [collapseWs, h, hc]
  | case3 c h => intro _ _; simp [collapseWs, h]
  | case4 c d rest h1 h2 ih =>
    intro hsp hch
    rw [List.chain'_cons] at hch
    exact absurd ⟨h1, h2⟩ hch.1
  | case5 c d rest h1 h2 ih =>
    intro hsp hch
    rw [List.chain'_cons] at hch
    simp only [collapseWs, if_pos h1, if_neg h2]
    rw [ih (fun x hx => hsp x (List.mem_cons_of_mem _ hx)) hch.2,
      hsp c (List.mem_cons_self _ _) h1]
  | case6 c d rest h1 ih =>
    intro hsp hch
    rw [List.chain'_cons] at hch
    simp only [collapseWs, if_neg h1]
    rw [ih (fun x hx => hsp x (List.mem_cons_of_mem _ hx)) hch.2]

/-- Characters surviving whitespace collapsing are the inserted space or
original characters. -/
theorem mem_collapseWs : ∀ (l : List Char), ∀ c ∈ collapseWs l, c = ' ' ∨ c ∈ l := by
  intro l
  induction l using collapseWs.induct with
  | case1 => simp [collapseWs]
  | case2 c h => simp [collapseWs, h]
  | case3 c h => simp [collapseWs, h]
  | case4 c d rest h1 h2 ih =>
    simp only [collapseWs, if_pos h1, if_pos h2]
    intro x hx
    rcases ih x hx with h | h
    · exact Or.inl h
    · exact Or.inr (List.mem_cons_of_mem _ h)
  | case5 c d rest h1 h2 ih =>
    simp only [collapseWs, if_pos h1, if_neg h2]
    intro x hx
    rcases List.mem_cons.mp hx with rfl | hx
    · exact Or.inl rfl
    · rcases ih x hx with h | h
      · exact Or.inl h
      · exact Or.inr (List.mem_cons_of_mem _ h)
  | case6 c d rest h1 ih =>
    simp only [collapseWs, if_neg h1]
    intro x hx
    rcases List.mem_cons.mp hx with rfl | hx
    · exact Or.inr (List.mem_cons_self _ _)
    · rcases ih x hx with h | h
      · exact Or.inl h
      · exact Or.inr (List.mem_cons_of_mem _ h)

/-- Punctuation collapsing keeps the head character. -/
theorem collapsePunct_head : ∀ (l : List Char), (collapsePunct l).head? = l.head? := by
  intro l
  induction l using collapsePunct.induct with
  | case1 => rfl
  | case2 c => rfl
  | case3 c d rest h ih =>
    simp only [collapsePunct, if_pos h]
    rw [ih]
    obtain ⟨hp, rfl⟩ := h
    rfl
  | case4 c d rest h ih =>
    simp only [collapsePunct, if_neg h, List.head?_cons]

/-- Punctuation collapsing only removes characters. -/
theorem mem_collapsePunct : ∀ (l : List Char), ∀ c ∈ collapsePunct l, c ∈ l := by
  intro l
  induction l using collapsePunct.induct with
  | case1 => simp [collapsePunct]
  | case2 c => simp [collapsePunct]
  | case3 c d rest h ih =>
    simp only [collapsePunct, if_pos h]
    intro x hx
    exact List.mem_cons_of_mem _ (ih x hx)
  | case4 c d rest h ih =>
    simp only [collapsePunct, if_neg h]
    intro x hx
    rcases List.mem_cons.mp hx with rfl | hx'
    · exact List.mem_cons_self _ _
    · exact List.mem_cons_of_mem _ (ih x hx')

/-- Punctuation collapsing preserves any adjacency chain (the dropped
character equals its left neighbour). -/
theorem collapsePunct_chain_of (R : Char → Char → Prop) :
    ∀ (l : List Char), List.Chain' R l → List.Chain' R (collapsePunct l) := by
  intro l
  induction l using collapsePunct.induct with
  | case1 => intro _; simp [collapsePunct]
  | case2 c => intro _; simp [collapsePunct]
  | case3 c d rest h ih =>
    intro hch
    simp only [collapsePunct, if_pos h]
    exact ih (List.chain'_cons.mp hch).2
  | case4 c d rest h ih =>
    intro hch
    obtain ⟨hr, hch'⟩ := List.chain'_cons.mp hch
    simp only [collapsePunct, if_neg h]
    rw [List.chain'_cons']
    refine ⟨?_, ih hch'⟩
    intro y hy
    rw [collapsePunct_head (d :: rest)] at hy
    simp only [List.head?_cons, Option.mem_def, Option.some.injEq] at hy
    subst hy
    exact hr

/-- After punctuation collapsing no two adjacent characters are the same
punctuation mark. -/
theorem collapsePunct_noDup : ∀ (l : List Char),
    List.Chain' (fun a b => ¬(isPunct6 a = true ∧ a = b)) (collapsePunct l) := by
  intro l
  induction l using collapsePunct.induct with
  | case1 => simp [collapsePunct]
  | case2 c => simp [collapsePunct]
  | case3 c d rest h ih => simpa only [collapsePunct, if_pos h] using ih
  | case4 c d rest h ih =>
    simp only [collapsePunct, if_neg h]
    rw [List.chain'_cons']
    refine ⟨?_, ih⟩
    intro y hy
    rw [collapsePunct_head (d :: rest)] at hy
    simp only [List.head?_cons, Option.mem_def, Option.some.injEq] at hy
    subst hy
    exact h

/-- Punctuation collapsing is the identity when no adjacent duplicates
remain. -/
theorem collapsePunct_id : ∀ (l : List Char),
    List.Chain' (fun a b => ¬(isPunct6 a = true ∧ a = b)) l → collapsePunct l = l := by
  intro l
  induction l using collapsePunct.induct with
  | case1 => intro _; rfl
  | case2 c => intro _; rfl
  | case3 c d rest h ih =>
    intro hch
    exact absurd h (List.chain'_cons.mp hch).1
  | case4 c d rest h ih =>
    intro hch
    simp only [collapsePunct, if_neg h]
    rw [ih (List.chain'_cons.mp hch).2]

/-- The head surviving `dropWhile` fails the dropped predicate. -/
theorem head_dropWhile_false (p : Char → Bool) :
    ∀ (l : List Char), ∀ c ∈ (List.dropWhile p l).head?, p c = false := by
  intro l
  induction l with
  | nil => simp
  | cons a t ih =>
    by_cases h : p a
    · simpa [List.dropWhile_cons, h] using ih
    · rw [List.dropWhile_cons, if_neg (by simp [h])]
      intro c hc
      simp only [List.head?_cons, Option.mem_def, Option.some.injEq] at hc
      subst hc
      simpa using h

/-- `dropWhile` is the identity when the head already fails the predicate. -/
theorem dropWhile_eq_self_of_head (p : Char → Bool) (l : List Char)
    (h : ∀ c ∈ l.head?, p c = false) : List.dropWhile p l = l := by
  cases l with
  | nil => rfl
  | cons a t =>
    have ha := h a (by simp)
    rw [List.dropWhile_cons, if_neg (by simp [ha])]

/-- `dropWhile` keeps the last element when its result is nonempty. -/
theorem getLast?_dropWhile (p : Char → Bool) :
    ∀ (l : List Char), List.dropWhile p l ≠ [] →
      (List.dropWhile p l).getLast? = l.getLast? := by
  intro l
  induction l with
  | nil => intro h; exact absurd rfl h
  | cons a t ih =>
    intro hne
    by_cases h : p a
    · rw [List.dropWhile_cons, if_pos (by simp [h])] at hne ⊢
      rw [ih hne]
      have ht : t ≠ [] := by
        intro he
        subst he
        simp at hne
      cases t with
      | nil => exact absurd rfl ht
      | cons b u => rw [List.getLast?_cons_cons]
    · rw [List.dropWhile_cons, if_neg (by simp [h])]

/-- Stripping only removes characters. -/
theorem mem_pyStripL (l : List Char) : ∀ c ∈ pyStripL l, c ∈ l := by
  intro c hc
  unfold pyStripL at hc
  rw [List.mem_reverse] at hc
  have h1 := (List.dropWhile_suffix (l := (l.dropWhile isPySpace).reverse)
    isPySpace).sublist.subset hc
  rw [List.mem_reverse] at h1
  exact (List.dropWhile_suffix isPySpace).sublist.subset h1

/-- Stripping preserves a symmetric adjacency chain. -/
theorem pyStripL_chain_of (R : Char → Char → Prop) (hsym : ∀ a b, R a b → R b a)
    (l : List Char) (h : List.Chain' R l) : List.Chain' R (pyStripL l) := by
  unfold pyStripL
  have h1 : List.Chain' R (l.dropWhile isPySpace) :=
    h.suffix (List.dropWhile_suffix _)
  have h2 : List.Chain' R (l.dropWhile isPySpace).reverse := by
    rw [List.chain'_reverse]
    exact h1.imp (fun a b hab => hsym a b hab)
  have h3 : List.Chain' R ((l.dropWhile isPySpace).reverse.dropWhile isPySpace) :=
    h2.suffix (List.dropWhile_suffix _)
  rw [List.chain'_reverse]
  exact h3.imp (fun a b hab => hsym a b hab)

/-- The stripped list starts with a non-whitespace character. -/
theorem pyStripL_head (l : List Char) :
    ∀ c ∈ (pyStripL l).head?, isPySpace c = false := by
  intro c hc
  unfold pyStripL at hc
  rw [List.head?_reverse] at hc
  by_cases hne : (l.dropWhile isPySpace).reverse.dropWhile isPySpace = []
  · rw [hne] at hc
    simp at hc
  · rw [getLast?_dropWhile isPySpace _ hne, List.getLast?_reverse] at hc
    exact head_dropWhile_false isPySpace l c hc

/-- The stripped list ends with a non-whitespace character. -/
theorem pyStripL_getLast (l : List Char) :
    ∀ c ∈ (pyStripL l).getLast?, isPySpace c = false := by
  intro c hc
  unfold pyStripL at hc
  rw [List.getLast?_reverse] at hc
  exact head_dropWhile_false isPySpace _ c hc

/-- Stripping is the identity on a list with non-whitespace ends. -/
theorem pyStripL_eq_self (l : List Char)
    (h1 : ∀ c ∈ l.head?, isPySpace c = false)
    (h2 : ∀ c ∈ l.getLast?, isPySpace c = false) : pyStripL l = l := by
  unfold pyStripL
  rw [dropWhile_eq_self_of_head isPySpace l h1]
  rw [dropWhile_eq_self_of_head isPySpace l.reverse
    (by rw [List.head?_reverse]; exact h2)]
  exact List.reverse_reverse l

/-- C10 (amended): `_clean_text` is idempotent on texts all of whose characters
belong to the kept class (word characters, whitespace and the kept punctuation)
— the frozen unrestricted claim fails because deleting a removed character can
merge two whitespace runs, see the counterexample. -/
theorem c10_clean_idem (s : String) (hk : ∀ c ∈ s.data, isKeptChar c = true) :
    cleanText (cleanText s) = cleanText s := by
  suffices h : cleanTextL (cleanTextL s.data) = cleanTextL s.data by
    show String.mk (cleanTextL (cleanTextL s.data)) = String.mk (cleanTextL s.data)
    rw [h]
  have hmk : ∀ c ∈ collapseWs s.data, isKeptChar c = true := by
    intro c hc
    rcases mem_collapseWs s.data c hc with rfl | hc'
    · rfl
    · exact hk c hc'
  have hfil : (collapseWs s.data).filter isKeptChar = collapseWs s.data :=
    List.filter_eq_self.mpr hmk
  have hq : cleanTextL s.data = pyStripL (collapsePunct (collapseWs s.data)) := by
    rw [cleanTextL, hfil]
  rw [hq]
  set q := pyStripL (collapsePunct (collapseWs s.data)) with hqdef
  have hqmem : ∀ c ∈ q, c ∈ collapseWs s.data := by
    intro c hc
    exact mem_collapsePunct _ c (mem_pyStripL _ c hc)
  have hqsp : ∀ c ∈ q, isPySpace c = true → c = ' ' :=
    fun c hc => collapseWs_space s.data c (hqmem c hc)
  have hqkept : ∀ c ∈ q, isKeptChar c = true := fun c hc => hmk c (hqmem c hc)
  have hqch1 : List.Chain' (fun a b => ¬(isPySpace a = true ∧ isPySpace b = true)) q :=
    pyStripL_chain_of _ (by intro a b hab h; exact hab ⟨h.2, h.1⟩) _
      (collapsePunct_chain_of _ _ (collapseWs_chain s.data))
  have hqch2 : List.Chain' (fun a b => ¬(isPunct6 a = true ∧ a = b)) q :=
    pyStripL_chain_of _ (by intro a b hab h; exact hab ⟨h.2 ▸ h.1, h.2.symm⟩) _
      (collapsePunct_noDup _)
  have e1 : collapseWs q = q := collapseWs_id q hqsp hqch1
  have e2 : q.filter isKeptChar = q := List.filter_eq_self.mpr hqkept
  have e3 : collapsePunct q = q := collapsePunct_id q hqch2
  have e4 : pyStripL q = q :=
    pyStripL_eq_self q (pyStripL_head _) (pyStripL_getLast _)
  show pyStripL (collapsePunct ((collapseWs q).filter isKeptChar)) = q
  rw [e1, e2, e3, e4]

/-- Witness for C10's amended statement: a kept-only string with doubled
spaces and punctuation. -/
theorem c10_clean_idem_witness :
    cleanText (cleanText "hi  there!!") = cleanText "hi  there!!" :=
  c10_clean_idem "hi  there!!" (by decide)

/-- Counterexample for C10 as frozen: one pass on "a @ b" deletes the "@" and
leaves the two spaces around it adjacent, so a second pass collapses them:
`_clean_text("a @ b") = "a  b"` but `_clean_text("a  b") = "a b"`. -/
theorem c10_counterexample :
    ¬(cleanText (cleanText "a @ b") = cleanText "a @ b") := by decide

end KBSE
